import Mathlib

/-! Verification development for the daily-walking devotional extraction
pipeline (`app/extract.py` and `app/tables.py`).

Strings are modelled as `List Char`.  Python `re` searches are implemented
as explicit scanners; on the character classes used by the source patterns
(digits, Chinese numerals, whitespace, the literal marker characters) the
classes are pairwise disjoint, so the greedy/backtracking semantics of the
Python engine coincide with the deterministic maximal-munch scanners below.
Stateful loops are embedded as explicit state-passing recursions; the
loops whose Python cursor arithmetic is not structural are given a fuel
parameter that provably suffices (see the fuel lemmas). -/

/-- Characters matched by Python's `\s` in Unicode mode (also the set
stripped by `str.strip()` with no arguments). -/
def isPyWsB (c : Char) : Bool :=
  c = ' ' || ('\x09' ≤ c && c ≤ '\x0D') || ('\x1C' ≤ c && c ≤ '\x1F') ||
  c = '\x85' || c = '\xA0' || c = ' ' || (' ' ≤ c && c ≤ ' ') ||
  c = ' ' || c = ' ' || c = ' ' || c = ' ' || c = '　'

/-- Unicode decimal digits as matched by Python's `\d` (restricted to the
ASCII and fullwidth forms, the only ones occurring in this document family). -/
def isPyDigit (c : Char) : Bool :=
  ('0' ≤ c && c ≤ '9') || ('０' ≤ c && c ≤ '９')

/-- The character class `[\d、]` of the day pattern. -/
def isDayDigit (c : Char) : Bool := isPyDigit c || c = '、'

/-- The literal class `[0-9]` of the chapter pattern in `tables.py`. -/
def isAsciiDigit (c : Char) : Bool := '0' ≤ c && c ≤ '9'

/-- The class `[一二三四五六七八九十百零]` of the chapter pattern. -/
def isChinNum (c : Char) : Bool :=
  c = '一' || c = '二' || c = '三' || c = '四' || c = '五' || c = '六' ||
  c = '七' || c = '八' || c = '九' || c = '十' || c = '百' || c = '零'

/-- One pass of `re.sub(r"\s+", " ", s)`: every maximal whitespace run
becomes a single ASCII space. -/
def collapseWs : List Char → List Char
  | [] => []
  | [c] => [if isPyWsB c then ' ' else c]
  | a :: b :: rest =>
    if isPyWsB a && isPyWsB b then collapseWs (b :: rest)
    else (if isPyWsB a then ' ' else a) :: collapseWs (b :: rest)

/-- Remove trailing whitespace (the right half of Python `str.strip()`). -/
def rstripWs : List Char → List Char
  | [] => []
  | c :: rest =>
    let r := rstripWs rest
    if r.isEmpty && isPyWsB c then [] else c :: r

/-- Python `str.strip()` with no arguments. -/
def pyStrip (s : List Char) : List Char := rstripWs (s.dropWhile isPyWsB)

/-- Python `str.lstrip()` with no arguments. -/
def lstripWs (s : List Char) : List Char := s.dropWhile isPyWsB

/-- Python `str.rstrip(chs)`: remove trailing characters drawn from `chs`. -/
def rstripSet (chs : List Char) : List Char → List Char
  | [] => []
  | c :: rest =>
    let r := rstripSet chs rest
    if r.isEmpty && chs.contains c then [] else c :: r

/-- `_normalize_text` from `app/extract.py`: collapse whitespace runs to a
single space, then strip both ends. -/
def normalize_text (s : List Char) : List Char := pyStrip (collapseWs s)

/-- Python `str.replace(o :: os, new)` (replace every non-overlapping
occurrence, scanning left to right); the pattern is non-empty by
construction, matching every call site in the source. -/
def replaceAll1 (o : Char) (os new : List Char) : List Char → List Char
  | [] => []
  | c :: rest =>
    if (o :: os).isPrefixOf (c :: rest)
    then new ++ replaceAll1 o os new (rest.drop os.length)
    else c :: replaceAll1 o os new rest
termination_by s => s.length
decreasing_by
  · simp only [List.length_drop, List.length_cons]; omega
  · simp only [List.length_cons]; omega

/-- Python `str.replace(old, new)`; with an empty pattern the result is
returned unchanged (no call site in the source uses an empty pattern). -/
def replaceAll (old new s : List Char) : List Char :=
  match old with
  | [] => s
  | o :: os => replaceAll1 o os new s

/-- Python's substring test `pat in s` (contiguous occurrence). -/
def isSubB (pat : List Char) : List Char → Bool
  | [] => pat.isEmpty
  | c :: rest => pat.isPrefixOf (c :: rest) || isSubB pat rest

/-- Split a text on `'\n'`, matching Python `str.split("\n")`. -/
def splitOnNl : List Char → List (List Char)
  | [] => [[]]
  | c :: rest =>
    if c = '\n' then [] :: splitOnNl rest
    else
      match splitOnNl rest with
      | [] => [[c]]
      | l :: ls => (c :: l) :: ls

/-- Match `第\s*CLS+\s*close` at the head of `s`; returns the length of the
match together with the captured class run.  The classes used (digits,
`[\d、]`, whitespace, marker characters) are pairwise disjoint, so the
maximal-munch scan agrees with Python's backtracking engine. -/
def matchMarkerHere (cls : Char → Bool) (close : Char) (s : List Char) :
    Option (Nat × List Char) :=
  match s with
  | [] => none
  | c :: rest =>
    if c = '第' then
      let w1 := (rest.takeWhile isPyWsB).length
      let r1 := rest.drop w1
      let g := r1.takeWhile cls
      if g.isEmpty then none
      else
        let r2 := r1.drop g.length
        let w2 := (r2.takeWhile isPyWsB).length
        match r2.drop w2 with
        | c2 :: _ => if c2 = close then some (1 + w1 + g.length + w2 + 1, g) else none
        | [] => none
    else none

/-- `re.search` for the marker patterns of `_detect_day_from_lines`:
returns `(start, end, group)` of the leftmost match. -/
def searchMarker (cls : Char → Bool) (close : Char) : List Char → Option (Nat × Nat × List Char)
  | [] => none
  | c :: rest =>
    match matchMarkerHere cls close (c :: rest) with
    | some (e, g) => some (0, e, g)
    | none =>
      match searchMarker cls close rest with
      | some (st, en, g) => some (st + 1, en + 1, g)
      | none => none

/-- Result type of `_detect_day_from_lines`. -/
structure HeaderMatch where
  week : List Char
  dayText : List Char
  consumed : Nat
  headerTitle : Option (List Char)
  headerScripture : Option (List Char)
deriving DecidableEq, Repr

/-- Python `s or None` on a stripped string: empty becomes `none`. -/
def orNone (s : List Char) : Option (List Char) :=
  if s.isEmpty then none else some s

/-- The `if title.endswith("月"): title = title[:-1].strip()` treatment
applied to title fragments in cases B and C of the detector. -/
def stripTrailYue (s : List Char) : List Char :=
  if s.getLast? = some '月' then pyStrip s.dropLast else s

/-- Replace the middle-dot day separator with a hyphen
(`day_text.replace("、", "-")`). -/
def dayRepl (g : List Char) : List Char :=
  g.map fun c => if c = '、' then '-' else c

/-- `_detect_day_from_lines` from `app/extract.py`: detect a week/day
header at `lines[i]`, handling the same-line, week-then-day and
day-with-week-on-previous-line layouts in the source's priority order. -/
def detect_day_from_lines (lines : List (List Char)) (i : Nat) : Option HeaderMatch :=
  let line := pyStrip (lines.getD i [])
  match searchMarker isPyDigit '周' line, searchMarker isDayDigit '日' line with
  | some w, some d =>
      some { week := w.2.2
             dayText := dayRepl d.2.2
             consumed := 1
             headerTitle := orNone (pyStrip ((line.drop w.2.1).take (d.1 - w.2.1)))
             headerScripture := orNone (rstripSet ['日', '月', ' '] (pyStrip (line.drop d.2.1))) }
  | some w, none =>
      if i + 1 < lines.length then
        let nextLine := pyStrip (lines.getD (i + 1) [])
        match searchMarker isDayDigit '日' nextLine with
        | some nd =>
            some { week := w.2.2
                   dayText := dayRepl nd.2.2
                   consumed := 2
                   headerTitle := orNone (stripTrailYue (pyStrip (line.drop w.2.1)))
                   headerScripture := orNone (rstripSet ['日', '月', ' '] (pyStrip (nextLine.drop nd.2.1))) }
        | none => none
      else none
  | none, some d =>
      if 1 ≤ i then
        let prevLine := pyStrip (lines.getD (i - 1) [])
        match searchMarker isPyDigit '周' prevLine with
        | some pw =>
            some { week := pw.2.2
                   dayText := dayRepl d.2.2
                   consumed := 1
                   headerTitle := orNone (stripTrailYue (pyStrip (prevLine.drop pw.2.1)))
                   headerScripture := orNone (rstripSet ['日', '月', ' '] (pyStrip (line.drop d.2.1))) }
        | none => none
      else none
  | none, none => none

/-- `re.search(r"金句：(.*)", line)`: first occurrence of the fullwidth
verse marker; the group is the remainder of the line. -/
def verseSearch : List Char → Option (List Char)
  | [] => none
  | '金' :: '句' :: '：' :: rest => some rest
  | _ :: rest => verseSearch rest

/-- Prompt lines skipped during reflection collection
(`nl.startswith("请用") or any(k in nl for k in ("思考","提醒","意义"))`). -/
def promptLine (nl : List Char) : Bool :=
  (['请', '用'].isPrefixOf nl) || isSubB ['思', '考'] nl ||
  isSubB ['提', '醒'] nl || isSubB ['意', '义'] nl

/-- The output record shape of the extractor. -/
structure DayRecord where
  dayLabel : List Char
  title : List Char
  scripture : List Char
  content : List Char
  reflection : List Char
  verse : List Char
deriving DecidableEq, Repr

instance : Inhabited DayRecord := ⟨⟨[], [], [], [], [], []⟩⟩

/-- Normalization applied to a record when it is closed (appended to the
output): `content` and `reflection` are whitespace-collapsed. -/
def closeRec (r : DayRecord) : DayRecord :=
  { r with content := normalize_text r.content, reflection := normalize_text r.reflection }

/-- Opening a new record on a header match in `extract_from_text`:
resolve title and scripture (preferring the inline header fragments, with
the fallback lines at `i + consumed` and `i + consumed + 1`), and compute
the new cursor position `i + skip`. -/
def openRecord (lines : List (List Char)) (i : Nat) (d : HeaderMatch) : DayRecord × Nat :=
  let titleIdx := i + d.consumed
  let scriptureIdx := i + d.consumed + 1
  let title :=
    match d.headerTitle with
    | some t => t
    | none => if titleIdx < lines.length then pyStrip (lines.getD titleIdx []) else []
  let scripture :=
    match d.headerScripture with
    | some sc => sc
    | none => if scriptureIdx < lines.length then pyStrip (lines.getD scriptureIdx []) else []
  let skip := d.consumed +
    (match d.headerTitle with | none => 1 | some _ => 0) +
    (match d.headerScripture with | none => 1 | some _ => 0)
  ({ dayLabel := '第' :: (d.week ++ '周' :: ' ' :: '第' :: (d.dayText ++ ['日'])),
     title := title, scripture := scripture,
     content := [], reflection := [], verse := [] }, i + skip)

/-- The inner reflection-collection loop of the verse branch: starting at
`j`, gather non-blank, non-prompt lines into the reflection until the next
day header (or end of input); returns the stop position and the collected
reflection.  The fuel only bounds the recursion; `reflScanF_fuel` shows it
is irrelevant once at least `lines.length - j`. -/
def reflScanF : Nat → List (List Char) → Nat → List Char → Nat × List Char
  | 0, _, j, refl => (j, refl)
  | fuel + 1, lines, j, refl =>
    if j < lines.length then
      if (detect_day_from_lines lines j).isSome then (j, refl)
      else
        let nl := pyStrip (lines.getD j [])
        if nl.isEmpty then reflScanF fuel lines (j + 1) refl
        else if promptLine nl then reflScanF fuel lines (j + 1) refl
        else reflScanF fuel lines (j + 1) (refl ++ nl ++ ['\n'])
    else (j, refl)

/-- One iteration of the outer `while i < len(lines)` loop of
`extract_from_text`: header detection (close current record, open a new
one), verse detection (set `verse`, run the reflection scan), or ordinary
content routing with the PAGE/title/scripture filters. -/
def segStep (lines : List (List Char)) (i : Nat) (cur : Option DayRecord)
    (acc : List DayRecord) : Nat × Option DayRecord × List DayRecord :=
  match detect_day_from_lines lines i with
  | some d =>
      let acc' := match cur with
        | some r => acc ++ [closeRec r]
        | none => acc
      let rn := openRecord lines i d
      (rn.2, some rn.1, acc')
  | none =>
    match cur with
    | none => (i + 1, none, acc)
    | some r =>
      let line := pyStrip (lines.getD i [])
      match verseSearch line with
      | some vrest =>
          let sc := reflScanF (lines.length + 1) lines (i + 1) r.reflection
          (sc.1, some { r with verse := vrest, reflection := sc.2 }, acc)
      | none =>
          if line ≠ [] ∧ isSubB ['P', 'A', 'G', 'E'] line = false ∧
             line ≠ r.title ∧ line ≠ r.scripture then
            (i + 1, some { r with content := r.content ++ (line ++ ['\n']) }, acc)
          else (i + 1, some r, acc)

/-- End of input: close the still-open record, if any. -/
def finishSeg (cur : Option DayRecord) (acc : List DayRecord) : List DayRecord :=
  match cur with
  | some r => acc ++ [closeRec r]
  | none => acc

/-- The outer segmentation loop of `extract_from_text`.  The fuel only
bounds the recursion; since the cursor strictly increases at each step
(`segStep_lt`), any fuel of at least `lines.length - i` gives the same
result (`segLoopF_fuel`). -/
def segLoopF : Nat → List (List Char) → Nat → Option DayRecord → List DayRecord → List DayRecord
  | 0, _, _, cur, acc => finishSeg cur acc
  | fuel + 1, lines, i, cur, acc =>
    if i < lines.length then
      let s := segStep lines i cur acc
      segLoopF fuel lines s.1 s.2.1 s.2.2
    else finishSeg cur acc

/-- `extract_from_text` from `app/extract.py`: split the text into lines
and run the segmentation loop from cursor 0 with no open record. -/
def extract_from_text (text : List Char) : List DayRecord :=
  let lines := splitOnNl text
  segLoopF (lines.length + 1) lines 0 none []

/-- A table grid: rows of cell strings, as in `tables.py`. -/
abbrev Table := List (List (List Char))

/-- `html.escape` with its default `quote=True`. -/
def htmlEscape (s : List Char) : List Char :=
  s.foldr (fun c acc =>
    (match c with
     | '&' => "&amp;".toList
     | '<' => "&lt;".toList
     | '>' => "&gt;".toList
     | '"' => "&quot;".toList
     | '\'' => "&#x27;".toList
     | _ => [c]) ++ acc) []

/-- `"".join(f"<th>{html.escape(c)}</th>" for c in row)` and its `<td>`
counterpart: each cell escaped and wrapped in the given tags. -/
def wrapCells (openT closeT : List Char) : List (List Char) → List Char
  | [] => []
  | c :: rest => openT ++ (htmlEscape c ++ (closeT ++ wrapCells openT closeT rest))

/-- Python `"\n".join(parts)`. -/
def joinSep (sep : List Char) : List (List Char) → List Char
  | [] => []
  | [x] => x
  | x :: y :: rest => x ++ (sep ++ joinSep sep (y :: rest))

/-- `table_to_html` from `app/tables.py`: first row as `<thead>`, the rest
as `<tbody>` rows, parts joined by newlines. -/
def table_to_html (t : Table) : List Char :=
  match t with
  | [] => []
  | header :: rest =>
    joinSep ['\n']
      ("<table>".toList ::
       ("  <thead>\n    <tr>".toList ++ wrapCells "<th>".toList "</th>".toList header ++
        "</tr>\n  </thead>".toList) ::
       "  <tbody>".toList ::
       (rest.map (fun r =>
          "    <tr>".toList ++ wrapCells "<td>".toList "</td>".toList r ++ "</tr>".toList) ++
        ["  </tbody>".toList, "</table>".toList]))

/-- The per-table cell de-duplication of `append_tables_to_content`: every
non-empty stripped cell text occurring verbatim in the content is replaced
by a single space. -/
def dedupeCells (t : Table) (content : List Char) : List Char :=
  t.foldl (fun c row => row.foldl (fun c cell =>
    let ct := pyStrip cell
    if ct.isEmpty then c
    else if isSubB ct c then replaceAll ct [' '] c else c) c) content

/-- The per-table body of the binder loop in `append_tables_to_content`
(HTML mode): de-duplicate cell text out of the record's content,
normalize, then append the serialized table with blank-line separators and
normalize again (the reflection is also re-normalized). -/
def appendTableToRec (r : DayRecord) (t : Table) : DayRecord :=
  let c1 := normalize_text (dedupeCells t r.content)
  { r with
    content := normalize_text (c1 ++ (' ' :: '\n' :: '\n' :: ' ' :: table_to_html t)),
    reflection := normalize_text r.reflection }

/-- The per-page step of `append_tables_to_content` (lines 165-207 of
`tables.py`): `mapped` is the page's associated record index
(`page_to_day_idx.get(pno)`); pages with no associated record, or with an
out-of-range index, contribute nothing; otherwise each table on the page
is appended in order to the target record. -/
def bindPage (data : List DayRecord) (mapped : Option Nat) (tables : List Table) :
    List DayRecord :=
  match mapped with
  | none => data
  | some t =>
    if t < data.length then
      tables.foldl (fun dacc tbl => dacc.set t (appendTableToRec (dacc.getD t default) tbl)) data
    else data

/-- ASCII lowercasing, as applied by `str.lower()` to the markup strings
handled here (no non-ASCII cased letters occur in table markup). -/
def lowerChar (c : Char) : Char :=
  if 'A' ≤ c && c ≤ 'Z' then Char.ofNat (c.toNat + 32) else c

/-- Index of the first occurrence of `pat` in `s`, if any. -/
def findPat (pat : List Char) : List Char → Option Nat
  | [] => if pat.isPrefixOf [] then some 0 else none
  | c :: rest =>
    if pat.isPrefixOf (c :: rest) then some 0
    else (findPat pat rest).map (· + 1)

/-- The first match of `(?is)(<table.*?>.*?</table>)` in `s`, as a
half-open index span.  The lazy quantifiers make the match the earliest
`<table`, then the first `>` after it, then the first `</table>` after
that; if any piece is missing no later start can succeed either, matching
the backtracking engine. -/
def nextTableSpan (s : List Char) : Option (Nat × Nat) :=
  let ls := s.map lowerChar
  match findPat "<table".toList ls with
  | none => none
  | some a =>
    match findPat ['>'] (ls.drop (a + 6)) with
    | none => none
    | some b =>
      match findPat "</table>".toList (ls.drop (a + 6 + b + 1)) with
      | none => none
      | some c2 => some (a, a + 6 + b + 1 + c2 + 8)

/-- Successive non-overlapping table spans (`table_re.finditer`), offset by
`base`.  Fuel bounds the recursion; each match consumes at least one
character (`nextTableSpan_pos`), so `s.length + 1` fuel is always enough. -/
def findTableSpansGo : Nat → List Char → Nat → List (Nat × Nat)
  | 0, _, _ => []
  | fuel + 1, s, base =>
    match nextTableSpan s with
    | none => []
    | some (a, e) => (base + a, base + e) :: findTableSpansGo fuel (s.drop e) (base + e)

/-- All spans of `table_re.finditer(s)`. -/
def findTableSpans (s : List Char) : List (Nat × Nat) :=
  findTableSpansGo (s.length + 1) s 0

/-- The substring of `s` covered by a span. -/
def spanSlice (s : List Char) (sp : Nat × Nat) : List Char :=
  (s.drop sp.1).take (sp.2 - sp.1)

/-- The `\s*章` tail of the chapter pattern: skip whitespace after the
numeral run and require the closing `章`; `pre` is the length matched so
far, the result the full match length. -/
def chapterClose (r2 : List Char) (pre : Nat) : Option Nat :=
  let w2 := (r2.takeWhile isPyWsB).length
  match r2.drop w2 with
  | c2 :: _ => if c2 = '章' then some (pre + w2 + 1) else none
  | [] => none

/-- Match `第\s*(?:[0-9]+|[一二三四五六七八九十百零]+)\s*章` at the head of
`s`, returning the length of the match. -/
def chapterTokenHere (s : List Char) : Option Nat :=
  match s with
  | [] => none
  | c :: rest =>
    if c = '第' then
      let w1 := (rest.takeWhile isPyWsB).length
      let r1 := rest.drop w1
      let dig := r1.takeWhile isAsciiDigit
      let g := if dig.isEmpty then r1.takeWhile isChinNum else dig
      if g.isEmpty then none
      else chapterClose (r1.drop g.length) (1 + w1 + g.length)
    else none

/-- `chapter_re.findall(s)`: all non-overlapping chapter tokens, scanned
left to right.  Fuel bounds the recursion; each step consumes at least one
character, so `s.length + 1` fuel is always enough. -/
def chapterFindallGo : Nat → List Char → List (List Char)
  | 0, _ => []
  | fuel + 1, s =>
    match s with
    | [] => []
    | c :: rest =>
      match chapterTokenHere (c :: rest) with
      | some k => (c :: rest).take k :: chapterFindallGo fuel ((c :: rest).drop k)
      | none => chapterFindallGo fuel rest

/-- All chapter tokens of `chapter_re.findall(s)`. -/
def chapterFindall (s : List Char) : List (List Char) :=
  chapterFindallGo (s.length + 1) s

/-- `inner(tok)` from pass 2 of the repair routine:
`re.sub(r'[第章\s]', '', tok)`. -/
def innerTok (tok : List Char) : List Char :=
  tok.filter fun c => !(c = '第' || c = '章' || isPyWsB c)

/-- `' '.join([scripture, title, content])` for the current record. -/
def curMeta (c : DayRecord) : List Char :=
  c.scripture ++ ' ' :: (c.title ++ ' ' :: c.content)

/-- The span of the last table block in a content string, if any. -/
def lastTableSpan (s : List Char) : Option (Nat × Nat) :=
  (findTableSpans s).getLast?

/-- The text of the last table block in a content string (empty if none). -/
def lastTableOf (s : List Char) : List Char :=
  match lastTableSpan s with
  | none => []
  | some sp => spanSlice s sp

/-- The adjacent-pair body of pass 1 of `_merge_split_tables_across_days`:
if the current content starts (after left-strip, case-insensitively) with
a table and the previous content also holds one, move the current's first
table block to the end of the previous content, unless it is already
present there. -/
def step1 (p c : DayRecord) : DayRecord × DayRecord :=
  if p.content = [] ∨ c.content = [] then (p, c)
  else if ("<table".toList.isPrefixOf ((lstripWs c.content).map lowerChar)) &&
          isSubB "<table".toList (p.content.map lowerChar) then
    match findTableSpans c.content with
    | [] => (p, c)
    | sp :: _ =>
      let firstTbl := spanSlice c.content sp
      if isSubB firstTbl p.content then (p, c)
      else
        ({ p with content := normalize_text (rstripWs p.content ++ '\n' :: '\n' :: firstTbl) },
         { c with content := normalize_text (pyStrip (c.content.take sp.1 ++ c.content.drop sp.2)) })
  else (p, c)

/-- The adjacent-pair body of pass 2 (chapter-aware forward migration) of
`_merge_split_tables_across_days`: if the previous content's trailing
table holds at least two chapter-token matches and any of them (or its
stripped form) occurs in the current record's joined
scripture/title/content metadata, move that trailing table to the front of
the current content, unless it is already present there. -/
def step2 (p c : DayRecord) : DayRecord × DayRecord :=
  if p.content = [] ∨ c.content = [] then (p, c)
  else
    match lastTableSpan p.content with
    | none => (p, c)
    | some sp =>
      let tbl := spanSlice p.content sp
      if (chapterFindall tbl).length < 2 then (p, c)
      else if (chapterFindall tbl).any
          (fun ch => isSubB ch (curMeta c) || isSubB (innerTok ch) (curMeta c)) then
        (if isSubB tbl c.content then (p, c)
         else
           ({ p with content := normalize_text (p.content.take sp.1 ++ p.content.drop sp.2) },
            { c with content := normalize_text (tbl ++ '\n' :: '\n' :: c.content) }))
      else (p, c)

/-- The adjacent-pair body of pass 3 (exact-duplicate removal) of
`_merge_split_tables_across_days`: every table block of the previous
content that occurs verbatim in the current content is deleted from the
current content, which is re-normalized when anything changed. -/
def step3 (p c : DayRecord) : DayRecord × DayRecord :=
  if p.content = [] ∨ c.content = [] then (p, c)
  else
    let prevTbls := (findTableSpans p.content).map (spanSlice p.content)
    if prevTbls.isEmpty then (p, c)
    else
      let res := prevTbls.foldl
        (fun st tbl =>
          if tbl ≠ [] ∧ isSubB tbl st.1 = true then (replaceAll tbl [] st.1, true) else st)
        (c.content, false)
      if res.2 then (p, { c with content := normalize_text res.1 }) else (p, c)

/-- Pass 1 over the whole record list (`for i in range(1, len(data))` with
in-place updates: the updated current record becomes the next pair's
previous record).  Fuel bounds the recursion; the list shrinks by one each
step, so `l.length` fuel is always enough. -/
def pass1Go : Nat → List DayRecord → List DayRecord
  | 0, l => l
  | _ + 1, [] => []
  | _ + 1, [x] => [x]
  | fuel + 1, a :: b :: rest =>
    let pr := step1 a b
    pr.1 :: pass1Go fuel (pr.2 :: rest)

/-- Pass 1 of `_merge_split_tables_across_days`. -/
def pass1 (l : List DayRecord) : List DayRecord := pass1Go l.length l

/-- Pass 2 over the whole record list. -/
def pass2Go : Nat → List DayRecord → List DayRecord
  | 0, l => l
  | _ + 1, [] => []
  | _ + 1, [x] => [x]
  | fuel + 1, a :: b :: rest =>
    let pr := step2 a b
    pr.1 :: pass2Go fuel (pr.2 :: rest)

/-- Pass 2 of `_merge_split_tables_across_days`. -/
def pass2 (l : List DayRecord) : List DayRecord := pass2Go l.length l

/-- Pass 3 over the whole record list. -/
def pass3Go : Nat → List DayRecord → List DayRecord
  | 0, l => l
  | _ + 1, [] => []
  | _ + 1, [x] => [x]
  | fuel + 1, a :: b :: rest =>
    let pr := step3 a b
    pr.1 :: pass3Go fuel (pr.2 :: rest)

/-- Pass 3 of `_merge_split_tables_across_days`. -/
def pass3 (l : List DayRecord) : List DayRecord := pass3Go l.length l

/-- `_merge_split_tables_across_days` on a list of well-formed records:
the three passes in order. -/
def merge_split_tables (l : List DayRecord) : List DayRecord :=
  pass3 (pass2 (pass1 l))

/-- Exception-aware pass 1: the Python list may hold entries that are not
dicts (modelled as `none`), on which `entry.get('content')` raises.  The
boolean records whether an exception escaped the loop; the returned list
is the list as already mutated when it did. -/
def pass1EGo : Nat → List (Option DayRecord) → List (Option DayRecord) × Bool
  | 0, l => (l, false)
  | _ + 1, [] => ([], false)
  | _ + 1, [x] => ([x], false)
  | fuel + 1, a :: b :: rest =>
    match a, b with
    | some ra, some rb =>
      let pr := step1 ra rb
      let out := pass1EGo fuel (some pr.2 :: rest)
      (some pr.1 :: out.1, out.2)
    | _, _ => (a :: b :: rest, true)

/-- Exception-aware pass 1 at the standard fuel. -/
def pass1E (l : List (Option DayRecord)) : List (Option DayRecord) × Bool :=
  pass1EGo l.length l

/-- Exception-aware pass 2, as `pass1EGo`. -/
def pass2EGo : Nat → List (Option DayRecord) → List (Option DayRecord) × Bool
  | 0, l => (l, false)
  | _ + 1, [] => ([], false)
  | _ + 1, [x] => ([x], false)
  | fuel + 1, a :: b :: rest =>
    match a, b with
    | some ra, some rb =>
      let pr := step2 ra rb
      let out := pass2EGo fuel (some pr.2 :: rest)
      (some pr.1 :: out.1, out.2)
    | _, _ => (a :: b :: rest, true)

/-- Exception-aware pass 2 at the standard fuel. -/
def pass2E (l : List (Option DayRecord)) : List (Option DayRecord) × Bool :=
  pass2EGo l.length l

/-- Exception-aware pass 3, as `pass1EGo`. -/
def pass3EGo : Nat → List (Option DayRecord) → List (Option DayRecord) × Bool
  | 0, l => (l, false)
  | _ + 1, [] => ([], false)
  | _ + 1, [x] => ([x], false)
  | fuel + 1, a :: b :: rest =>
    match a, b with
    | some ra, some rb =>
      let pr := step3 ra rb
      let out := pass3EGo fuel (some pr.2 :: rest)
      (some pr.1 :: out.1, out.2)
    | _, _ => (a :: b :: rest, true)

/-- Exception-aware pass 3 at the standard fuel. -/
def pass3E (l : List (Option DayRecord)) : List (Option DayRecord) × Bool :=
  pass3EGo l.length l

/-- `_merge_split_tables_across_days` with its top-level
`try ... except` modelled explicitly: run the passes in order; when a pass
raises, later passes do not run and the function returns with the records
as mutated so far.  The boolean reports whether an exception was caught. -/
def merge_split_tables_E (d : List (Option DayRecord)) : List (Option DayRecord) × Bool :=
  let r1 := pass1E d
  if r1.2 then (r1.1, true)
  else
    let r2 := pass2E r1.1
    if r2.2 then (r2.1, true)
    else pass3E r2.1

/-- No two adjacent whitespace characters (no whitespace run of length two
or more). -/
def noDoubleWsB : List Char → Bool
  | [] => true
  | [_] => true
  | a :: b :: rest => !(isPyWsB a && isPyWsB b) && noDoubleWsB (b :: rest)

/-- Every whitespace character is the plain ASCII space. -/
def allWsSpaceB (s : List Char) : Bool := s.all fun c => !isPyWsB c || c = ' '

/-- The string holds no whitespace at all. -/
def wsFreeB (s : List Char) : Bool := s.all fun c => !isPyWsB c

/-- The first character, when present, is not whitespace. -/
def headNonWsB (s : List Char) : Bool :=
  match s.head? with
  | none => true
  | some c => !isPyWsB c

/-- The last character, when present, is not whitespace. -/
def lastNonWsB (s : List Char) : Bool :=
  match s.getLast? with
  | none => true
  | some c => !isPyWsB c

/-- Fully whitespace-normalized text: no whitespace run of length two or
more, no newline, and no leading or trailing whitespace. -/
def normalTextB (s : List Char) : Bool :=
  noDoubleWsB s && s.all (fun c => !(c = '\n')) && headNonWsB s && lastNonWsB s

/-- Fixture for C1: a same-line header with an inline title but no inline
scripture, followed by two candidate lines. -/
def ex1 : List Char := "第1周 标题 第2日\nX\nY".toList

/-- Fixture for C2: a complete header, then a verse line written with the
halfwidth colon. -/
def ex2 : List Char := "第1周 T 第2日 S\n金句:ABC".toList

/-- Fixture for C10's witness: a full record with content, verse and
reflection. -/
def ex10 : List Char := "第3周 题 第4日 经文\nhello  world\n金句：K\nref line".toList

/-- Fixture lines for C2's witness (fullwidth verse marker). -/
def lines2 : List (List Char) := ["第1周 T 第2日 S".toList, "金句：ABC".toList]

/-- An arbitrary open record for C2's witness. -/
def wrec2 : DayRecord := ⟨"L".toList, "T".toList, "S".toList, "C".toList, "R".toList, []⟩

/-- Fixture for C5's counterexample: an empty-content record. -/
def rec5 : DayRecord := ⟨[], [], [], [], [], []⟩

/-- Fixture for C5's counterexample: a one-cell table whose cell text holds
an internal double space. -/
def tab5 : Table := [["a  b".toList]]

/-- Fixture record for C5's witness. -/
def wrec5 : DayRecord := ⟨[], "t".toList, "s".toList, "pre".toList, [], []⟩

/-- Fixture table for C5's witness: whitespace-free cells. -/
def wtab5 : Table := [["abc".toList, "x&y".toList], ["d".toList]]

/-- Fixture for C3's counterexample: previous record whose trailing table
holds the same chapter token twice. -/
def pX : DayRecord := ⟨[], "pt".toList, "ps".toList, "z <table>第一章 第一章</table>".toList, [], []⟩

/-- Fixture for C3's counterexample: current record whose scripture holds
that chapter token. -/
def cX : DayRecord := ⟨[], "ct".toList, "第一章".toList, "y".toList, [], []⟩

/-- Fixture for C3's witness: previous record with two distinct chapter
tokens in its trailing table. -/
def pW : DayRecord := ⟨[], "pt".toList, "ps".toList, "z <table>第一章 第二章</table>".toList, [], []⟩

/-- Fixture for C3's witness: current record referencing one token. -/
def cW : DayRecord := ⟨[], "t".toList, "第二章".toList, "y".toList, [], []⟩

/-- Fixture for C4's counterexample: two valid records followed by an
entry that is not a dict (on which attribute access raises). -/
def r40 : DayRecord := ⟨[], [], [], "<table>a</table>".toList, [], []⟩

/-- Second valid record of C4's counterexample. -/
def r41 : DayRecord := ⟨[], [], [], "<table>b</table>".toList, [], []⟩

/-- The record list of C4's counterexample. -/
def d40 : List (Option DayRecord) := [some r40, some r41, none]

/-- Fixture data for C6's witness. -/
def data6 : List DayRecord := [⟨[], [], [], "c".toList, [], []⟩]

/-- Fixture tables for C6's witness. -/
def tables6 : List Table := [[["x".toList]]]

/-- Fixture header match for C1's witness: inline title, no inline
scripture. -/
def wd1 : HeaderMatch := ⟨"1".toList, "2".toList, 1, some "T".toList, none⟩

/-- Fixture lines for C1's witness. -/
def wlines1 : List (List Char) := ["h".toList, "x".toList, "y".toList]

/-- Fixture lines for C8's witness. -/
def lines8 : List (List Char) := ["第1周 a 第2日 b".toList, "x".toList, "y".toList]

/-- Fixture lines for C8's witness, differing from `lines8` only at
index 2 (outside the detector's neighborhood of position 0). -/
def lines8' : List (List Char) := ["第1周 a 第2日 b".toList, "x".toList, "z".toList]

/-! Theorems.  First the whitespace theory behind `_normalize_text`. -/

theorem noDoubleWsB_tail {a : Char} {t : List Char} (h : noDoubleWsB (a :: t) = true) :
    noDoubleWsB t = true := by
  cases t with
  | nil => rfl
  | cons b r =>
    simp only [noDoubleWsB, Bool.and_eq_true] at h
    exact h.2

theorem noDoubleWsB_cons_nonws {a : Char} {t : List Char} (ha : isPyWsB a = false)
    (ht : noDoubleWsB t = true) : noDoubleWsB (a :: t) = true := by
  cases t with
  | nil => rfl
  | cons b r => simp [noDoubleWsB, ha, ht]

theorem noDoubleWsB_cons_head {a x : Char} {t : List Char} (hh : t.head? = some x)
    (hx : isPyWsB x = false) (ht : noDoubleWsB t = true) : noDoubleWsB (a :: t) = true := by
  cases t with
  | nil => simp at hh
  | cons b r =>
    simp only [List.head?_cons, Option.some.injEq] at hh
    subst hh
    simp [noDoubleWsB, hx, ht]

theorem mem_collapseWs {c : Char} :
    ∀ {s : List Char}, c ∈ collapseWs s → (c ∈ s ∧ isPyWsB c = false) ∨ c = ' '
  | [], h => by simp [collapseWs] at h
  | [x], h => by
    simp only [collapseWs, List.mem_singleton] at h
    by_cases hx : isPyWsB x
    · right; simpa [hx] using h
    · left
      simp only [hx, if_false] at h
      refine ⟨by simp [h], by rw [h]; simpa using hx⟩
  | a :: b :: rest, h => by
    by_cases hg : isPyWsB a && isPyWsB b
    · rw [collapseWs, if_pos hg] at h
      rcases mem_collapseWs h with ⟨hm, hw⟩ | hs
      · exact Or.inl ⟨List.mem_cons_of_mem a hm, hw⟩
      · exact Or.inr hs
    · rw [collapseWs, if_neg hg] at h
      rcases List.mem_cons.mp h with he | hm
      · by_cases ha : isPyWsB a
        · right; simpa [ha] using he
        · left
          simp only [ha, if_false] at he
          refine ⟨by simp [he], by rw [he]; simpa using ha⟩
      · rcases mem_collapseWs hm with ⟨hm2, hw⟩ | hs
        · exact Or.inl ⟨List.mem_cons_of_mem a hm2, hw⟩
        · exact Or.inr hs

theorem collapseWs_allWs (s : List Char) : allWsSpaceB (collapseWs s) = true := by
  simp only [allWsSpaceB, List.all_eq_true]
  intro c hc
  rcases mem_collapseWs hc with ⟨_, hw⟩ | hs
  · simp [hw]
  · simp [hs]

theorem collapseWs_head_nonws {b : Char} {rest : List Char} (h : isPyWsB b = false) :
    (collapseWs (b :: rest)).head? = some b := by
  cases rest with
  | nil => simp [collapseWs, h]
  | cons r rs => simp [collapseWs, h]

theorem collapseWs_noDouble : ∀ s : List Char, noDoubleWsB (collapseWs s) = true
  | [] => rfl
  | [_] => rfl
  | a :: b :: rest => by
    by_cases hg : isPyWsB a && isPyWsB b
    · rw [collapseWs, if_pos hg]
      exact collapseWs_noDouble (b :: rest)
    · rw [collapseWs, if_neg hg]
      by_cases hb : isPyWsB b
      · have ha : isPyWsB a = false := by
          cases hA : isPyWsB a
          · rfl
          · exact absurd (by simp [hA, hb]) hg
        have ha' : isPyWsB (if isPyWsB a then ' ' else a) = false := by simp [ha]
        exact noDoubleWsB_cons_nonws ha' (collapseWs_noDouble (b :: rest))
      · exact noDoubleWsB_cons_head (collapseWs_head_nonws (by simpa using hb))
          (by simpa using hb) (collapseWs_noDouble (b :: rest))

theorem collapseWs_fix : ∀ {s : List Char}, noDoubleWsB s = true → allWsSpaceB s = true →
    collapseWs s = s
  | [], _, _ => rfl
  | [c], _, ha => by
    simp only [allWsSpaceB, List.all_eq_true, List.mem_singleton, forall_eq] at ha
    by_cases hc : isPyWsB c
    · have : c = ' ' := by simpa [hc] using ha
      simp [collapseWs, hc, this]
    · simp [collapseWs, hc]
  | a :: b :: rest, hn, ha => by
    simp only [noDoubleWsB, Bool.and_eq_true] at hn
    have hg : (isPyWsB a && isPyWsB b) = false := by
      have h1 := hn.1
      simp only [Bool.not_eq_true'] at h1
      exact h1
    rw [collapseWs, if_neg (by simp [hg])]
    have hta : allWsSpaceB (b :: rest) = true := by
      simp only [allWsSpaceB, List.all_eq_true] at ha ⊢
      intro x hx; exact ha x (List.mem_cons_of_mem a hx)
    have hrec := collapseWs_fix hn.2 hta
    rw [hrec]
    by_cases hwa : isPyWsB a
    · have : a = ' ' := by
        simp only [allWsSpaceB, List.all_eq_true] at ha
        have := ha a (List.mem_cons_self a _)
        simpa [hwa] using this
      simp [hwa, this]
    · simp [hwa]

theorem rstripWs_cons (c : Char) (rest : List Char) :
    rstripWs (c :: rest) =
      if (rstripWs rest).isEmpty && isPyWsB c then [] else c :: rstripWs rest := rfl

theorem rstripWs_pre : ∀ s : List Char, rstripWs s <+: s
  | [] => ⟨[], rfl⟩
  | c :: rest => by
    rw [rstripWs_cons]
    by_cases hg : (rstripWs rest).isEmpty && isPyWsB c
    · rw [if_pos hg]
      exact ⟨c :: rest, rfl⟩
    · rw [if_neg hg]
      exact List.cons_prefix_cons.mpr ⟨rfl, rstripWs_pre rest⟩

theorem mem_of_mem_rstripWs {c : Char} {s : List Char} (h : c ∈ rstripWs s) : c ∈ s :=
  (rstripWs_pre s).sublist.mem h

theorem mem_of_mem_dropWhile {c : Char} {p : Char → Bool} {s : List Char}
    (h : c ∈ s.dropWhile p) : c ∈ s :=
  (List.dropWhile_sublist p).mem h

theorem noDoubleWsB_of_pre : ∀ {t s : List Char}, t <+: s → noDoubleWsB s = true →
    noDoubleWsB t = true
  | [], _, _, _ => rfl
  | [_], _, _, _ => rfl
  | x :: y :: t', s, hp, hs => by
    match s, hp with
    | x' :: s', hp =>
      have h1 := List.cons_prefix_cons.mp hp
      obtain ⟨he, hp'⟩ := h1
      subst he
      match s', hp' with
      | y' :: s'', hp' =>
        have h2 := List.cons_prefix_cons.mp hp'
        obtain ⟨he2, hp''⟩ := h2
        subst he2
        simp only [noDoubleWsB, Bool.and_eq_true] at hs ⊢
        exact ⟨hs.1, noDoubleWsB_of_pre (List.cons_prefix_cons.mpr ⟨rfl, hp''⟩) hs.2⟩

theorem noDoubleWsB_dropWhile (p : Char → Bool) :
    ∀ {s : List Char}, noDoubleWsB s = true → noDoubleWsB (s.dropWhile p) = true
  | [], _ => rfl
  | a :: rest, h => by
    rw [List.dropWhile]
    cases hp : p a
    · simpa [hp] using h
    · simp only [hp]
      exact noDoubleWsB_dropWhile p (noDoubleWsB_tail h)

theorem head_dropWhile_not (p : Char → Bool) :
    ∀ {s : List Char} {c : Char}, (s.dropWhile p).head? = some c → p c = false
  | [], c, h => by simp [List.dropWhile] at h
  | a :: rest, c, h => by
    rw [List.dropWhile] at h
    cases hp : p a
    · rw [hp] at h
      simp only [List.head?_cons, Option.some.injEq] at h
      rw [← h]; exact hp
    · rw [hp] at h
      exact head_dropWhile_not p h

theorem rstripWs_last : ∀ (s : List Char) {c : Char},
    (rstripWs s).getLast? = some c → isPyWsB c = false
  | [], c, h => by simp [rstripWs] at h
  | a :: rest, c, h => by
    rw [rstripWs_cons] at h
    by_cases hg : (rstripWs rest).isEmpty && isPyWsB a
    · rw [if_pos hg] at h; simp at h
    · rw [if_neg hg] at h
      cases hr : rstripWs rest with
      | nil =>
        rw [hr] at h
        simp only [List.getLast?_singleton, Option.some.injEq] at h
        have ha : isPyWsB a = false := by
          cases hA : isPyWsB a
          · rfl
          · exact absurd (by simp [hr, hA]) hg
        rw [← h]; exact ha
      | cons y ys =>
        rw [hr] at h
        rw [List.getLast?_cons_cons] at h
        exact rstripWs_last rest (by rw [hr]; exact h)

theorem rstripWs_fix : ∀ {s : List Char}, lastNonWsB s = true → rstripWs s = s
  | [], _ => rfl
  | a :: rest, h => by
    rw [rstripWs_cons]
    cases rest with
    | nil =>
      simp only [lastNonWsB, List.getLast?_singleton] at h
      have ha : isPyWsB a = false := by simpa using h
      simp [rstripWs, ha]
    | cons b r =>
      have ht : lastNonWsB (b :: r) = true := by
        simpa only [lastNonWsB, List.getLast?_cons_cons] using h
      rw [rstripWs_fix ht]
      simp

theorem dropWhileWs_fix {s : List Char} (h : headNonWsB s = true) :
    s.dropWhile isPyWsB = s := by
  cases s with
  | nil => rfl
  | cons a rest =>
    simp only [headNonWsB, List.head?_cons] at h
    have ha : isPyWsB a = false := by simpa using h
    rw [List.dropWhile]
    simp [ha]

theorem rstripWs_head {s : List Char} {c : Char} (h : (rstripWs s).head? = some c) :
    s.head? = some c := by
  obtain ⟨t, ht⟩ := rstripWs_pre s
  cases hr : rstripWs s with
  | nil => rw [hr] at h; simp at h
  | cons y ys =>
    rw [hr] at h ht
    simp only [List.head?_cons, Option.some.injEq] at h
    rw [← ht]
    simp [h]

theorem pyStrip_noDouble {s : List Char} (h : noDoubleWsB s = true) :
    noDoubleWsB (pyStrip s) = true :=
  noDoubleWsB_of_pre (rstripWs_pre _) (noDoubleWsB_dropWhile isPyWsB h)

theorem pyStrip_allWs {s : List Char} (h : allWsSpaceB s = true) :
    allWsSpaceB (pyStrip s) = true := by
  simp only [allWsSpaceB, List.all_eq_true] at h ⊢
  intro c hc
  exact h c (mem_of_mem_dropWhile (mem_of_mem_rstripWs hc))

theorem pyStrip_head {s : List Char} : headNonWsB (pyStrip s) = true := by
  unfold headNonWsB
  cases hh : (pyStrip s).head? with
  | none => rfl
  | some c =>
    have := head_dropWhile_not isPyWsB (rstripWs_head hh)
    simp [this]

theorem pyStrip_last {s : List Char} : lastNonWsB (pyStrip s) = true := by
  unfold lastNonWsB
  cases hh : (pyStrip s).getLast? with
  | none => rfl
  | some c =>
    have := rstripWs_last (s.dropWhile isPyWsB) hh
    simp [this]

theorem pyStrip_fix {s : List Char} (hh : headNonWsB s = true) (hl : lastNonWsB s = true) :
    pyStrip s = s := by
  unfold pyStrip
  rw [dropWhileWs_fix hh, rstripWs_fix hl]

theorem normalize_text_noDouble (s : List Char) : noDoubleWsB (normalize_text s) = true :=
  pyStrip_noDouble (collapseWs_noDouble s)

theorem normalize_text_allWs (s : List Char) : allWsSpaceB (normalize_text s) = true :=
  pyStrip_allWs (collapseWs_allWs s)

theorem normalize_text_head (s : List Char) : headNonWsB (normalize_text s) = true :=
  pyStrip_head

theorem normalize_text_last (s : List Char) : lastNonWsB (normalize_text s) = true :=
  pyStrip_last

theorem normalize_text_no_newline (s : List Char) :
    (normalize_text s).all (fun c => !(c = '\n')) = true := by
  simp only [List.all_eq_true]
  intro c hc
  have ha := normalize_text_allWs s
  simp only [allWsSpaceB, List.all_eq_true] at ha
  have h5 := ha c hc
  simp only [Bool.not_eq_true', decide_eq_false_iff_not]
  intro hcn
  rw [hcn] at h5
  exact absurd h5 (by decide)

theorem normalize_text_normal (s : List Char) : normalTextB (normalize_text s) = true := by
  unfold normalTextB
  rw [normalize_text_noDouble s, normalize_text_no_newline s, normalize_text_head s,
    normalize_text_last s]
  rfl

/-- C7: the Line Normalizer `_normalize_text` is idempotent: normalizing an
already-normalized string changes nothing. -/
theorem normalize_idempotent (s : List Char) :
    normalize_text (normalize_text s) = normalize_text s := by
  have h1 : collapseWs (normalize_text s) = normalize_text s :=
    collapseWs_fix (normalize_text_noDouble s) (normalize_text_allWs s)
  show pyStrip (collapseWs (normalize_text s)) = normalize_text s
  rw [h1]
  exact pyStrip_fix (normalize_text_head s) (normalize_text_last s)

/-! Substring machinery for the binder round-trip property (C5). -/

theorem sub_of_pre {u s : List Char} (h : u <+: s) : u <:+: s := by
  obtain ⟨t, ht⟩ := h
  exact ⟨[], t, by simpa using ht⟩

theorem sub_cons {u s : List Char} (a : Char) (h : u <:+: s) : u <:+: (a :: s) := by
  obtain ⟨p, q, hpq⟩ := h
  exact ⟨a :: p, q, by simp only [List.cons_append, List.append_assoc] at hpq ⊢; rw [hpq]⟩

theorem sub_split {u s : List Char} {a : Char} (h : u <:+: (a :: s)) :
    u <+: (a :: s) ∨ u <:+: s := by
  obtain ⟨p, q, hpq⟩ := h
  cases p with
  | nil => exact Or.inl ⟨q, by simpa using hpq⟩
  | cons x p' =>
    right
    simp only [List.cons_append] at hpq
    injection hpq with h1 h2
    exact ⟨p', q, h2⟩

theorem sub_app_left {u s : List Char} (w : List Char) (h : u <:+: s) : u <:+: (w ++ s) := by
  obtain ⟨p, q, hpq⟩ := h
  exact ⟨w ++ p, q, by rw [← hpq]; simp⟩

theorem sub_app_right {u s : List Char} (w : List Char) (h : u <:+: s) : u <:+: (s ++ w) := by
  obtain ⟨p, q, hpq⟩ := h
  exact ⟨p, q ++ w, by rw [← hpq]; simp⟩

theorem subOfSelf (s : List Char) : s <:+: s := ⟨[], [], by simp⟩

theorem nilPre (l : List Char) : [] <+: l := ⟨l, rfl⟩

theorem wsFree_head {u : List Char} {x : Char} (hw : wsFreeB (x :: u) = true) :
    isPyWsB x = false := by
  simp only [wsFreeB, List.all_eq_true] at hw
  simpa using hw x (List.mem_cons_self x u)

theorem wsFree_tail {u : List Char} {x : Char} (hw : wsFreeB (x :: u) = true) :
    wsFreeB u = true := by
  simp only [wsFreeB, List.all_eq_true] at hw ⊢
  exact fun c hc => hw c (List.mem_cons_of_mem x hc)

theorem collapse_keeps_clean_pre :
    ∀ {s u : List Char}, wsFreeB u = true → u <+: s → u <+: collapseWs s
  | [], u, _, hp => by
    have hu : u = [] := List.prefix_nil.mp hp
    subst hu
    exact ⟨collapseWs [], by simp⟩
  | [c], u, hw, hp => by
    cases u with
    | nil => exact ⟨collapseWs [c], by simp⟩
    | cons x u' =>
      obtain ⟨he, hp'⟩ := List.cons_prefix_cons.mp hp
      subst he
      have hu' : u' = [] := List.prefix_nil.mp hp'
      subst hu'
      have hx : isPyWsB x = false := wsFree_head hw
      simp only [collapseWs, hx]
      simp
  | a :: b :: rest, u, hw, hp => by
    by_cases hg : isPyWsB a && isPyWsB b
    · rw [collapseWs, if_pos hg]
      cases u with
      | nil => exact ⟨collapseWs (b :: rest), by simp⟩
      | cons x u' =>
        obtain ⟨he, _⟩ := List.cons_prefix_cons.mp hp
        subst he
        have hx : isPyWsB x = false := wsFree_head hw
        exfalso
        rw [hx] at hg
        simp at hg
    · rw [collapseWs, if_neg hg]
      cases u with
      | nil => exact nilPre _
      | cons x u' =>
        obtain ⟨he, hp'⟩ := List.cons_prefix_cons.mp hp
        subst he
        have hx : isPyWsB x = false := wsFree_head hw
        rw [if_neg (by simp [hx])]
        exact List.cons_prefix_cons.mpr
          ⟨rfl, collapse_keeps_clean_pre (wsFree_tail hw) hp'⟩

theorem collapse_keeps_clean_sub :
    ∀ {s u : List Char}, wsFreeB u = true → u <:+: s → u <:+: collapseWs s
  | [], u, _, hs => by
    obtain ⟨p, q, hpq⟩ := hs
    have : u = [] := by
      have := List.append_eq_nil.mp (List.append_eq_nil.mp hpq).1
      exact this.2
    subst this
    exact ⟨[], [], rfl⟩
  | [c], u, hw, hs => by
    rcases sub_split hs with hp | hs'
    · exact sub_of_pre (collapse_keeps_clean_pre hw hp)
    · obtain ⟨p, q, hpq⟩ := hs'
      have : u = [] := by
        have := List.append_eq_nil.mp (List.append_eq_nil.mp hpq).1
        exact this.2
      subst this
      exact ⟨[], collapseWs [c], by simp⟩
  | a :: b :: rest, u, hw, hs => by
    rcases sub_split hs with hp | hs'
    · exact sub_of_pre (collapse_keeps_clean_pre hw hp)
    · have hrec := collapse_keeps_clean_sub hw hs'
      by_cases hg : isPyWsB a && isPyWsB b
      · rw [collapseWs, if_pos hg]; exact hrec
      · rw [collapseWs, if_neg hg]; exact sub_cons _ hrec

theorem dropWhile_keeps_clean_sub :
    ∀ {s u : List Char}, u ≠ [] → wsFreeB u = true → u <:+: s →
      u <:+: (s.dropWhile isPyWsB)
  | [], u, hne, _, hs => by
    obtain ⟨p, q, hpq⟩ := hs
    have : u = [] := by
      have := List.append_eq_nil.mp (List.append_eq_nil.mp hpq).1
      exact this.2
    exact absurd this hne
  | a :: rest, u, hne, hw, hs => by
    rw [List.dropWhile]
    cases ha : isPyWsB a
    · simpa [ha] using hs
    · simp only
      rcases sub_split hs with hp | hs'
      · cases u with
        | nil => exact absurd rfl hne
        | cons x u' =>
          obtain ⟨he, _⟩ := List.cons_prefix_cons.mp hp
          subst he
          have hx : isPyWsB x = false := wsFree_head hw
          rw [hx] at ha; cases ha
      · exact dropWhile_keeps_clean_sub hne hw hs'

theorem rstrip_keeps_clean_pre :
    ∀ {u s : List Char}, wsFreeB u = true → u <+: s → u <+: rstripWs s
  | [], s, _, _ => ⟨rstripWs s, by simp⟩
  | x :: u', s, hw, hp => by
    match s, hp with
    | x' :: s', hp =>
      obtain ⟨he, hp'⟩ := List.cons_prefix_cons.mp hp
      subst he
      rw [rstripWs_cons]
      have hx : isPyWsB x = false := wsFree_head hw
      rw [if_neg (by simp [hx])]
      exact List.cons_prefix_cons.mpr ⟨rfl, rstrip_keeps_clean_pre (wsFree_tail hw) hp'⟩

theorem rstrip_keeps_clean_sub :
    ∀ {s u : List Char}, u ≠ [] → wsFreeB u = true → u <:+: s → u <:+: rstripWs s
  | [], u, hne, _, hs => by
    obtain ⟨p, q, hpq⟩ := hs
    have : u = [] := by
      have := List.append_eq_nil.mp (List.append_eq_nil.mp hpq).1
      exact this.2
    exact absurd this hne
  | a :: rest, u, hne, hw, hs => by
    rcases sub_split hs with hp | hs'
    · exact sub_of_pre (rstrip_keeps_clean_pre hw hp)
    · have hrec := rstrip_keeps_clean_sub hne hw hs'
      rw [rstripWs_cons]
      by_cases hg : (rstripWs rest).isEmpty && isPyWsB a
      · exfalso
        have hemp : rstripWs rest = [] := by
          cases hr : rstripWs rest
          · rfl
          · rw [hr] at hg; simp at hg
        rw [hemp] at hrec
        obtain ⟨p, q, hpq⟩ := hrec
        have : u = [] := by
          have := List.append_eq_nil.mp (List.append_eq_nil.mp hpq).1
          exact this.2
        exact absurd this hne
      · rw [if_neg hg]
        exact sub_cons _ hrec

theorem normalize_keeps_clean_sub {u s : List Char} (hne : u ≠ [])
    (hw : wsFreeB u = true) (h : u <:+: s) : u <:+: normalize_text s :=
  rstrip_keeps_clean_sub hne hw
    (dropWhile_keeps_clean_sub hne hw (collapse_keeps_clean_sub hw h))

theorem subTrans {u v w : List Char} (h1 : u <:+: v) (h2 : v <:+: w) : u <:+: w := by
  obtain ⟨p, q, hpq⟩ := h1
  obtain ⟨p2, q2, hpq2⟩ := h2
  exact ⟨p2 ++ p, q ++ q2, by rw [← hpq2, ← hpq]; simp⟩

theorem mem_sub_joinSep {x : List Char} (sep : List Char) :
    ∀ {L : List (List Char)}, x ∈ L → x <:+: joinSep sep L
  | [], h => absurd h (List.not_mem_nil x)
  | [y], h => by
    have hxy : x = y := by simpa using h
    subst hxy
    exact subOfSelf x
  | y :: z :: rest, h => by
    rw [joinSep]
    rcases List.mem_cons.mp h with he | hm
    · subst he
      exact sub_of_pre ⟨sep ++ joinSep sep (z :: rest), rfl⟩
    · exact sub_app_left y (sub_app_left sep (mem_sub_joinSep sep hm))

theorem cell_sub_wrapCells {cell : List Char} (openT closeT : List Char) :
    ∀ {row : List (List Char)}, cell ∈ row →
      htmlEscape cell <:+: wrapCells openT closeT row
  | [], h => absurd h (List.not_mem_nil _)
  | c :: rest, h => by
    rw [wrapCells]
    rcases List.mem_cons.mp h with he | hm
    · subst he
      exact sub_app_left openT
        (sub_of_pre ⟨closeT ++ wrapCells openT closeT rest, rfl⟩)
    · exact sub_app_left _ (sub_app_left _
        (sub_app_left _ (cell_sub_wrapCells openT closeT hm)))

theorem cell_sub_table_to_html {cell : List Char} {row : List (List Char)} {t : Table}
    (hrow : row ∈ t) (hcell : cell ∈ row) : htmlEscape cell <:+: table_to_html t := by
  match t with
  | [] => exact absurd hrow (List.not_mem_nil _)
  | header :: rest =>
    rw [table_to_html]
    rcases List.mem_cons.mp hrow with he | hm
    · subst he
      have h1 : htmlEscape cell <:+:
          ("  <thead>\n    <tr>".toList ++ wrapCells "<th>".toList "</th>".toList row ++
            "</tr>\n  </thead>".toList) :=
        sub_app_right _ (sub_app_left _ (cell_sub_wrapCells _ _ hcell))
      refine subTrans h1 (mem_sub_joinSep _ ?_)
      exact List.mem_cons_of_mem _ (List.mem_cons_self _ _)
    · have h1 : htmlEscape cell <:+:
          ("    <tr>".toList ++ wrapCells "<td>".toList "</td>".toList row ++
            "</tr>".toList) :=
        sub_app_right _ (sub_app_left _ (cell_sub_wrapCells _ _ hcell))
      refine subTrans h1 (mem_sub_joinSep _ ?_)
      refine List.mem_cons_of_mem _ (List.mem_cons_of_mem _ (List.mem_cons_of_mem _ ?_))
      exact List.mem_append_left _ (List.mem_map_of_mem _ hm)

/-- C5 (amended): for a record with no pre-existing text duplicating the
appended table's cells, the Table-to-Record Binder preserves verbatim the
HTML-escaped text of every cell that holds no whitespace; cell text whose
escaped form holds whitespace is preserved only up to the final
whitespace normalization (see the counterexample). -/
theorem binder_preserves_wsfree_cell_text (r : DayRecord) (t : Table)
    (row : List (List Char)) (cell : List Char)
    (hrow : row ∈ t) (hcell : cell ∈ row)
    (hnodup : ∀ row' ∈ t, ∀ c' ∈ row', pyStrip c' ≠ [] →
      isSubB (pyStrip c') r.content = false)
    (hws : wsFreeB (htmlEscape cell) = true) (hne : htmlEscape cell ≠ []) :
    htmlEscape cell <:+: (appendTableToRec r t).content := by
  have h1 : htmlEscape cell <:+: table_to_html t := cell_sub_table_to_html hrow hcell
  have h2 : htmlEscape cell <:+:
      (normalize_text (dedupeCells t r.content) ++
        (' ' :: '\n' :: '\n' :: ' ' :: table_to_html t)) :=
    sub_app_left _ (sub_cons _ (sub_cons _ (sub_cons _ (sub_cons _ h1))))
  have h3 := normalize_keeps_clean_sub hne hws h2
  simpa [appendTableToRec] using h3

set_option maxRecDepth 4000 in
/-- C5 counterexample: binding the one-cell table whose cell text is
`"a  b"` (an internal run of two spaces) to a record with empty content —
so the claim's hypotheses hold — yields a content in which the cell text
does not occur verbatim: only the collapsed form `"a b"` survives.  The
Binder therefore does alter appended cell text, contrary to the claim. -/
theorem binder_alters_cell_with_ws_run :
    isSubB "a  b".toList (appendTableToRec rec5 tab5).content = false ∧
    isSubB "a b".toList (appendTableToRec rec5 tab5).content = true ∧
    rec5.content = [] := by decide

/-- Witness for C5's amended theorem at a concrete record and table. -/
theorem binder_preserves_wsfree_cell_text_witness :
    htmlEscape "abc".toList <:+: (appendTableToRec wrec5 wtab5).content :=
  binder_preserves_wsfree_cell_text wrec5 wtab5 ["abc".toList, "x&y".toList] "abc".toList
    (by decide) (by decide) (by decide) (by decide) (by decide)

theorem closeRec_normal (r : DayRecord) :
    normalTextB (closeRec r).content = true ∧ normalTextB (closeRec r).reflection = true :=
  ⟨normalize_text_normal _, normalize_text_normal _⟩

theorem segStep_acc_src (lines : List (List Char)) (i : Nat) (cur : Option DayRecord)
    (acc : List DayRecord) :
    ∀ r ∈ (segStep lines i cur acc).2.2, r ∈ acc ∨ ∃ r0, r = closeRec r0 := by
  intro r hr
  rcases hd : detect_day_from_lines lines i with _ | d
  · cases cur with
    | none =>
      simp only [segStep, hd] at hr
      exact Or.inl hr
    | some r0 =>
      rcases hv : verseSearch (pyStrip (lines.getD i [])) with _ | v
      · simp only [segStep, hd, hv] at hr
        split at hr
        · exact Or.inl hr
        · exact Or.inl hr
      · simp only [segStep, hd, hv] at hr
        exact Or.inl hr
  · cases cur with
    | none =>
      simp only [segStep, hd] at hr
      exact Or.inl hr
    | some r0 =>
      simp only [segStep, hd] at hr
      rcases List.mem_append.mp hr with hm | hm
      · exact Or.inl hm
      · right; exact ⟨r0, by simpa using hm⟩

theorem segLoopF_normal : ∀ (fuel : Nat) (lines : List (List Char)) (i : Nat)
    (cur : Option DayRecord) (acc : List DayRecord),
    (∀ r ∈ acc, normalTextB r.content = true ∧ normalTextB r.reflection = true) →
    ∀ r ∈ segLoopF fuel lines i cur acc,
      normalTextB r.content = true ∧ normalTextB r.reflection = true
  | 0, lines, i, cur, acc, hacc, r, hr => by
    unfold segLoopF finishSeg at hr
    cases cur with
    | none => exact hacc r hr
    | some r0 =>
      rcases List.mem_append.mp hr with hm | hm
      · exact hacc r hm
      · have he : r = closeRec r0 := by simpa using hm
        subst he
        exact closeRec_normal r0
  | fuel + 1, lines, i, cur, acc, hacc, r, hr => by
    unfold segLoopF at hr
    split at hr
    · refine segLoopF_normal fuel lines _ _ _ ?_ r hr
      intro r' hr'
      rcases segStep_acc_src lines i cur acc r' hr' with hm | ⟨r0, he⟩
      · exact hacc r' hm
      · subst he; exact closeRec_normal r0
    · unfold finishSeg at hr
      cases cur with
      | none => exact hacc r hr
      | some r0 =>
        rcases List.mem_append.mp hr with hm | hm
        · exact hacc r hm
        · have he : r = closeRec r0 := by simpa using hm
          subst he
          exact closeRec_normal r0

/-- C10: every `DayRecord` in the output of `extract_from_text` has
whitespace-normalized `content` and `reflection`: no run of two or more
consecutive whitespace characters, no newline, and no leading or trailing
whitespace (records are normalized exactly when appended). -/
theorem extract_records_normalized (text : List Char) (r : DayRecord)
    (hr : r ∈ extract_from_text text) :
    normalTextB r.content = true ∧ normalTextB r.reflection = true := by
  unfold extract_from_text at hr
  exact segLoopF_normal _ _ _ _ _
    (fun r' hr' => absurd hr' (List.not_mem_nil _)) r hr

set_option maxRecDepth 8000 in
/-- Witness for C10 at a concrete input producing one full record. -/
theorem extract_records_normalized_witness :
    normalTextB ((extract_from_text ex10).getD 0 default).content = true ∧
    normalTextB ((extract_from_text ex10).getD 0 default).reflection = true :=
  extract_records_normalized ex10 _ (by decide)

theorem reflScanF_ge : ∀ (fuel : Nat) (lines : List (List Char)) (j : Nat) (refl : List Char),
    j ≤ (reflScanF fuel lines j refl).1
  | 0, _, j, _ => Nat.le_refl j
  | fuel + 1, lines, j, refl => by
    unfold reflScanF
    split
    · split
      · exact Nat.le_refl j
      · dsimp only
        split
        · exact Nat.le_trans (Nat.le_succ j) (reflScanF_ge fuel lines (j + 1) refl)
        · split
          · exact Nat.le_trans (Nat.le_succ j) (reflScanF_ge fuel lines (j + 1) refl)
          · exact Nat.le_trans (Nat.le_succ j) (reflScanF_ge fuel lines (j + 1) _)
    · exact Nat.le_refl j

theorem detect_consumed {lines : List (List Char)} {i : Nat} {d : HeaderMatch}
    (h : detect_day_from_lines lines i = some d) : d.consumed = 1 ∨ d.consumed = 2 := by
  unfold detect_day_from_lines at h
  dsimp only at h
  rcases hw : searchMarker isPyDigit '周' (pyStrip (lines.getD i [])) with _ | w
  · rcases hdm : searchMarker isDayDigit '日' (pyStrip (lines.getD i [])) with _ | dm
    · simp only [hw, hdm] at h
      exact Option.noConfusion h
    · simp only [hw, hdm] at h
      split at h
      · rcases hpw : searchMarker isPyDigit '周' (pyStrip (lines.getD (i - 1) [])) with _ | pw
        · simp only [hpw] at h
          exact Option.noConfusion h
        · simp only [hpw] at h
          have he := Option.some.inj h
          rw [← he]
          left; rfl
      · simp at h
  · rcases hdm : searchMarker isDayDigit '日' (pyStrip (lines.getD i [])) with _ | dm
    · simp only [hw, hdm] at h
      split at h
      · rcases hnd : searchMarker isDayDigit '日' (pyStrip (lines.getD (i + 1) [])) with _ | nd
        · simp only [hnd] at h
          exact Option.noConfusion h
        · simp only [hnd] at h
          have he := Option.some.inj h
          rw [← he]
          right; rfl
      · simp at h
    · simp only [hw, hdm] at h
      have he := Option.some.inj h
      rw [← he]
      left; rfl

theorem segStep_lt (lines : List (List Char)) (i : Nat) (cur : Option DayRecord)
    (acc : List DayRecord) : i < (segStep lines i cur acc).1 := by
  rcases hd : detect_day_from_lines lines i with _ | d
  · cases cur with
    | none =>
      simp only [segStep, hd]
      exact Nat.lt_succ_self i
    | some r =>
      rcases hv : verseSearch (pyStrip (lines.getD i [])) with _ | v
      · simp only [segStep, hd, hv]
        split
        · exact Nat.lt_succ_self i
        · exact Nat.lt_succ_self i
      · simp only [segStep, hd, hv]
        show i < (reflScanF (lines.length + 1) lines (i + 1) r.reflection).1
        have := reflScanF_ge (lines.length + 1) lines (i + 1) r.reflection
        omega
  · simp only [segStep, hd, openRecord]
    have hc := detect_consumed hd
    rcases hc with h1 | h1 <;> rw [h1] <;> omega

/-- C9: the Record Segmenter's cursor strictly increases on every
iteration of the outer loop of `extract_from_text` — a header match
advances by at least one consumed line, the verse branch advances to the
reflection scan's stop position (at least `i + 1`), and every other branch
advances by one — so segmentation of any finite line sequence completes. -/
theorem segStep_cursor_increases (lines : List (List Char)) (i : Nat)
    (cur : Option DayRecord) (acc : List DayRecord) :
    i < (segStep lines i cur acc).1 :=
  segStep_lt lines i cur acc

/-- C8: the Header Detector is total on in-range positions — it returns a
`HeaderMatch` or `none` — and it reads only lines `i`, `i + 1` (guarded by
`i + 1 < length`) and `i - 1` (guarded by `1 ≤ i`): its result is
unchanged under any replacement of the other lines, stated as a frame
property over equal-length line lists. -/
theorem detect_day_frame (lines lines' : List (List Char)) (i : Nat)
    (hrange : i < lines.length)
    (hlen : lines.length = lines'.length)
    (hi : lines.getD i [] = lines'.getD i [])
    (hnext : i + 1 < lines.length → lines.getD (i + 1) [] = lines'.getD (i + 1) [])
    (hprev : 1 ≤ i → lines.getD (i - 1) [] = lines'.getD (i - 1) []) :
    detect_day_from_lines lines i = detect_day_from_lines lines' i := by
  unfold detect_day_from_lines
  rw [← hi, ← hlen]
  dsimp only
  rcases hw : searchMarker isPyDigit '周' (pyStrip (lines.getD i [])) with _ | w <;>
    rcases hdm : searchMarker isDayDigit '日' (pyStrip (lines.getD i [])) with _ | dm <;>
    simp only [hw, hdm]
  · split
    next h1 => rw [hprev h1]
    next => rfl
  · split
    next h1 => rw [hnext h1]
    next => rfl

/-- Witness for C8 at concrete line lists differing only outside the
detector's neighborhood of position 0. -/
theorem detect_day_frame_witness :
    detect_day_from_lines lines8 0 = detect_day_from_lines lines8' 0 :=
  detect_day_frame lines8 lines8' 0 (by decide) (by decide) (by decide)
    (fun _ => by decide) (fun h => absurd h (by decide))

/-- C1 (amended): when the header supplies no inline scripture, the Record
Segmenter resolves the new record's scripture from the line at index
`i + consumed + 1` (trimmed; empty string when out of range) regardless of
whether a title line was consumed as fallback — not from
`i + consumed + (1 if title line consumed else 0)` as the claim words it
(see the counterexample for the divergence when the title is inline). -/
theorem openRecord_scripture_fixed_offset (lines : List (List Char)) (i : Nat)
    (d : HeaderMatch) (h : d.headerScripture = none) :
    (openRecord lines i d).1.scripture =
      if i + d.consumed + 1 < lines.length then pyStrip (lines.getD (i + d.consumed + 1) [])
      else [] := by
  simp only [openRecord, h]

/-- Witness for C1's amended theorem at a concrete header match. -/
theorem openRecord_scripture_fixed_offset_witness :
    (openRecord wlines1 0 wd1).1.scripture =
      if 0 + wd1.consumed + 1 < wlines1.length then
        pyStrip (wlines1.getD (0 + wd1.consumed + 1) [])
      else [] :=
  openRecord_scripture_fixed_offset wlines1 0 wd1 (by decide)

set_option maxRecDepth 8000 in
/-- C1 counterexample: in `ex1` the header at index 0 carries an inline
title but no inline scripture (`consumed = 1`); the claim predicts the
scripture from line index `i + consumed = 1` (the line `"X"`), but the
extractor reads line index `i + consumed + 1 = 2` (the line `"Y"`). -/
theorem scripture_fallback_index_cex :
    (extract_from_text ex1).map DayRecord.scripture = [['Y']] ∧
    (detect_day_from_lines (splitOnNl ex1) 0).map HeaderMatch.headerScripture =
      some none ∧
    (detect_day_from_lines (splitOnNl ex1) 0).map HeaderMatch.consumed = some 1 ∧
    (detect_day_from_lines (splitOnNl ex1) 0).map HeaderMatch.headerTitle =
      some (some "标题".toList) ∧
    pyStrip ((splitOnNl ex1).getD 1 []) = ['X'] ∧
    (['Y'] : List Char) ≠ ['X'] := by decide

/-- C2 (amended): for an open record, a line whose stripped text holds the
fullwidth verse marker `金句：` sets the record's verse field to the
remainder of the line; the halfwidth colon is NOT recognized — the
compiled pattern uses the fullwidth colon only (see the counterexample). -/
theorem fullwidth_verse_marker_sets_verse (lines : List (List Char)) (i : Nat)
    (r : DayRecord) (acc : List DayRecord) (vrest : List Char)
    (hnohdr : detect_day_from_lines lines i = none)
    (hverse : verseSearch (pyStrip (lines.getD i [])) = some vrest) :
    Option.map DayRecord.verse (segStep lines i (some r) acc).2.1 = some vrest := by
  simp only [segStep, hnohdr, hverse, Option.map]

/-- Witness for C2's amended theorem at a concrete line list. -/
theorem fullwidth_verse_marker_sets_verse_witness :
    Option.map DayRecord.verse (segStep lines2 1 (some wrec2) []).2.1 =
      some "ABC".toList :=
  fullwidth_verse_marker_sets_verse lines2 1 wrec2 [] "ABC".toList (by decide) (by decide)

set_option maxRecDepth 8000 in
/-- C2 counterexample: with the halfwidth colon the verse marker is not
recognized: the record's verse stays empty and the line is routed to
content instead. -/
theorem halfwidth_colon_verse_cex :
    (extract_from_text ex2).map (fun r => (r.verse, r.content)) =
      [(([] : List Char), "金句:ABC".toList)] ∧
    "ABC".toList ≠ ([] : List Char) := by decide

/-- C6: a page whose associated record index is `none` (no day header on
the page) contributes none of its tables to any record — the whole record
list is returned unchanged, so no neighboring record receives them — and
likewise a page whose associated index is out of range of the record
list. -/
theorem bindPage_skips_unassociated (data : List DayRecord) (tables : List Table) :
    bindPage data none tables = data ∧
    ∀ k, data.length ≤ k → bindPage data (some k) tables = data := by
  constructor
  · rfl
  · intro k hk
    simp only [bindPage]
    rw [if_neg (Nat.not_lt.mpr hk)]

/-- Witness for C6 at concrete data and tables. -/
theorem bindPage_skips_unassociated_witness :
    bindPage data6 none tables6 = data6 ∧ bindPage data6 (some 5) tables6 = data6 :=
  ⟨(bindPage_skips_unassociated data6 tables6).1,
   (bindPage_skips_unassociated data6 tables6).2 5 (by decide)⟩

/-- C3 (amended): in the chapter-aware forward-migration pass, whenever
the adjacent-pair step changes anything, every guard of the source held:
both contents are non-empty, the previous content's trailing table holds
at least two chapter-token MATCHES (occurrences, not necessarily distinct
— see the counterexample), at least one token (or its
第/章/whitespace-stripped form) occurs in the space-joined
scripture/title/content metadata of the current record, the table is not
already present in the current content, and the trailing table is moved
to the front of the current content. -/
theorem step2_move_conditions (p c : DayRecord) (h : step2 p c ≠ (p, c)) :
    p.content ≠ [] ∧ c.content ≠ [] ∧
    2 ≤ (chapterFindall (lastTableOf p.content)).length ∧
    ((chapterFindall (lastTableOf p.content)).any fun ch =>
        isSubB ch (curMeta c) || isSubB (innerTok ch) (curMeta c)) = true ∧
    isSubB (lastTableOf p.content) c.content = false ∧
    (step2 p c).2.content =
      normalize_text (lastTableOf p.content ++ '\n' :: '\n' :: c.content) := by
  unfold step2 at h
  split at h
  · exact absurd rfl h
  next hemp =>
    rcases hsp : lastTableSpan p.content with _ | sp
    · simp only [hsp] at h
      exact absurd rfl h
    · simp only [hsp] at h
      split at h
      · exact absurd rfl h
      next h2 =>
        split at h
        next h3 =>
          split at h
          · exact absurd rfl h
          next h4 =>
            push_neg at hemp
            have htbl : lastTableOf p.content = spanSlice p.content sp := by
              unfold lastTableOf
              rw [hsp]
            have hstep : step2 p c =
                ({ p with content :=
                    normalize_text (p.content.take sp.1 ++ p.content.drop sp.2) },
                 { c with content :=
                    normalize_text (spanSlice p.content sp ++ '\n' :: '\n' :: c.content) }) := by
              unfold step2
              rw [if_neg (by push_neg; exact hemp)]
              simp only [hsp]
              rw [if_neg h2, if_pos h3, if_neg h4]
            refine ⟨hemp.1, hemp.2, ?_, ?_, ?_, ?_⟩
            · rw [htbl]; omega
            · rw [htbl]; exact h3
            · rw [htbl]; simpa using h4
            · rw [hstep, htbl]
        next h3 => exact absurd rfl h

set_option maxRecDepth 8000 in
/-- Witness for C3's amended theorem: a trailing table with two distinct
chapter tokens, one of which occurs in the current record's scripture, is
moved to the front of the current content. -/
theorem step2_move_conditions_witness :
    pW.content ≠ [] ∧ cW.content ≠ [] ∧
    2 ≤ (chapterFindall (lastTableOf pW.content)).length ∧
    ((chapterFindall (lastTableOf pW.content)).any fun ch =>
        isSubB ch (curMeta cW) || isSubB (innerTok ch) (curMeta cW)) = true ∧
    isSubB (lastTableOf pW.content) cW.content = false ∧
    (step2 pW cW).2.content =
      normalize_text (lastTableOf pW.content ++ '\n' :: '\n' :: cW.content) :=
  step2_move_conditions pW cW (by decide)

set_option maxRecDepth 8000 in
/-- C3 counterexample: the source only requires `len(chs) >= 2` on the
token occurrences; with the same chapter token appearing twice (a single
DISTINCT token) the trailing table is still moved, contradicting the
claim's "at least two distinct chapter-number tokens". -/
theorem step2_nondistinct_tokens_cex :
    step2 pX cX ≠ (pX, cX) ∧
    (chapterFindall (lastTableOf pX.content)).dedup.length = 1 ∧
    (step2 pX cX).2.content =
      normalize_text (lastTableOf pX.content ++ '\n' :: '\n' :: cX.content) := by decide

theorem pass1EGo_map_some : ∀ (fuel : Nat) (d : List DayRecord),
    pass1EGo fuel (d.map some) = ((pass1Go fuel d).map some, false)
  | 0, d => rfl
  | _ + 1, [] => rfl
  | _ + 1, [_] => rfl
  | fuel + 1, a :: b :: rest => by
    simp only [List.map, pass1EGo, pass1Go]
    have he : (some (step1 a b).2 :: rest.map some) = ((step1 a b).2 :: rest).map some := rfl
    rw [he, pass1EGo_map_some fuel ((step1 a b).2 :: rest)]

theorem pass2EGo_map_some : ∀ (fuel : Nat) (d : List DayRecord),
    pass2EGo fuel (d.map some) = ((pass2Go fuel d).map some, false)
  | 0, d => rfl
  | _ + 1, [] => rfl
  | _ + 1, [_] => rfl
  | fuel + 1, a :: b :: rest => by
    simp only [List.map, pass2EGo, pass2Go]
    have he : (some (step2 a b).2 :: rest.map some) = ((step2 a b).2 :: rest).map some := rfl
    rw [he, pass2EGo_map_some fuel ((step2 a b).2 :: rest)]

theorem pass3EGo_map_some : ∀ (fuel : Nat) (d : List DayRecord),
    pass3EGo fuel (d.map some) = ((pass3Go fuel d).map some, false)
  | 0, d => rfl
  | _ + 1, [] => rfl
  | _ + 1, [_] => rfl
  | fuel + 1, a :: b :: rest => by
    simp only [List.map, pass3EGo, pass3Go]
    have he : (some (step3 a b).2 :: rest.map some) = ((step3 a b).2 :: rest).map some := rfl
    rw [he, pass3EGo_map_some fuel ((step3 a b).2 :: rest)]

/-- C4 (amended): the repair pass catches any exception and returns
without raising, but modifications already applied before the failure are
kept — records are NOT restored to their pre-pass state (see the
counterexample).  On a list of well-formed records no exception occurs
and the three passes run to completion. -/
theorem merge_runs_to_completion (d : List DayRecord) :
    merge_split_tables_E (d.map some) = ((merge_split_tables d).map some, false) := by
  simp only [merge_split_tables_E, merge_split_tables, pass1E, pass2E, pass3E,
    pass1, pass2, pass3, List.length_map, pass1EGo_map_some, pass2EGo_map_some,
    pass3EGo_map_some]
  simp

set_option maxRecDepth 8000 in
/-- C4 counterexample: on `d40` (two well-formed records followed by a
non-dict entry) pass 1 first moves the leading table of the second record
back into the first, then raises on the non-dict entry; the exception is
caught, but the already-applied modification is kept, so the records are
NOT left exactly as they were before the repair pass began. -/
theorem merge_partial_modification_cex :
    (merge_split_tables_E d40).2 = true ∧
    (merge_split_tables_E d40).1 ≠ d40 ∧
    (merge_split_tables_E d40).1.map (Option.map DayRecord.content) =
      [some "<table>a</table> <table>b</table>".toList, some [], none] := by decide

/-! Fuel adequacy: each fueled loop is independent of the fuel once it is
at least the stated bound, so the `length + 1` (resp. `length`) fuel used
by the wrappers reproduces the unbounded Python loops. -/

theorem reflScanF_fuel : ∀ (f1 f2 : Nat) (lines : List (List Char)) (j : Nat)
    (refl : List Char), lines.length - j ≤ f1 → lines.length - j ≤ f2 →
    reflScanF f1 lines j refl = reflScanF f2 lines j refl
  | 0, f2, lines, j, refl, h1, _ => by
    have hj : ¬ j < lines.length := by omega
    cases f2 with
    | zero => rfl
    | succ f2' =>
      unfold reflScanF
      rw [if_neg hj]
  | f1 + 1, 0, lines, j, refl, _, h2 => by
    have hj : ¬ j < lines.length := by omega
    unfold reflScanF
    rw [if_neg hj]
  | f1 + 1, f2 + 1, lines, j, refl, h1, h2 => by
    unfold reflScanF
    by_cases hj : j < lines.length
    · rw [if_pos hj, if_pos hj]
      dsimp only
      have hr1 : lines.length - (j + 1) ≤ f1 := by omega
      have hr2 : lines.length - (j + 1) ≤ f2 := by omega
      split
      · rfl
      · split
        · exact reflScanF_fuel f1 f2 lines (j + 1) refl hr1 hr2
        · split
          · exact reflScanF_fuel f1 f2 lines (j + 1) refl hr1 hr2
          · exact reflScanF_fuel f1 f2 lines (j + 1) _ hr1 hr2
    · rw [if_neg hj, if_neg hj]

theorem segLoopF_fuel : ∀ (f1 f2 : Nat) (lines : List (List Char)) (i : Nat)
    (cur : Option DayRecord) (acc : List DayRecord),
    lines.length - i ≤ f1 → lines.length - i ≤ f2 →
    segLoopF f1 lines i cur acc = segLoopF f2 lines i cur acc
  | 0, f2, lines, i, cur, acc, h1, _ => by
    have hi : ¬ i < lines.length := by omega
    cases f2 with
    | zero => rfl
    | succ f2' =>
      unfold segLoopF
      rw [if_neg hi]
  | f1 + 1, 0, lines, i, cur, acc, _, h2 => by
    have hi : ¬ i < lines.length := by omega
    unfold segLoopF
    rw [if_neg hi]
  | f1 + 1, f2 + 1, lines, i, cur, acc, h1, h2 => by
    unfold segLoopF
    by_cases hi : i < lines.length
    · rw [if_pos hi, if_pos hi]
      dsimp only
      have hlt := segStep_lt lines i cur acc
      exact segLoopF_fuel f1 f2 lines (segStep lines i cur acc).1
        (segStep lines i cur acc).2.1 (segStep lines i cur acc).2.2
        (by omega) (by omega)
    · rw [if_neg hi, if_neg hi]

theorem nextTableSpan_pos {s : List Char} {a e : Nat}
    (h : nextTableSpan s = some (a, e)) : 0 < e := by
  unfold nextTableSpan at h
  dsimp only at h
  cases h1 : findPat "<table".toList (s.map lowerChar) with
  | none => simp only [h1] at h; exact Option.noConfusion h
  | some a' =>
    simp only [h1] at h
    cases h2 : findPat ['>'] ((s.map lowerChar).drop (a' + 6)) with
    | none => simp only [h2] at h; exact Option.noConfusion h
    | some b =>
      simp only [h2] at h
      cases h3 : findPat "</table>".toList ((s.map lowerChar).drop (a' + 6 + b + 1)) with
      | none => simp only [h3] at h; exact Option.noConfusion h
      | some c2 =>
        simp only [h3] at h
        cases h
        omega

theorem findTableSpansGo_fuel : ∀ (f1 f2 : Nat) (s : List Char) (base : Nat),
    s.length < f1 → s.length < f2 →
    findTableSpansGo f1 s base = findTableSpansGo f2 s base
  | 0, _, s, _, h1, _ => absurd h1 (by omega)
  | _ + 1, 0, s, _, _, h2 => absurd h2 (by omega)
  | f1 + 1, f2 + 1, s, base, h1, h2 => by
    unfold findTableSpansGo
    cases s with
    | nil => rfl
    | cons c rest =>
      cases hn : nextTableSpan (c :: rest) with
      | none => simp only [hn]
      | some ae =>
        obtain ⟨a, e⟩ := ae
        simp only [hn]
        have hp := nextTableSpan_pos hn
        have hl : ((c :: rest).drop e).length < f1 := by
          rw [List.length_drop]
          simp only [List.length_cons] at h1 ⊢
          omega
        have hl2 : ((c :: rest).drop e).length < f2 := by
          rw [List.length_drop]
          simp only [List.length_cons] at h2 ⊢
          omega
        rw [findTableSpansGo_fuel f1 f2 ((c :: rest).drop e) (base + e) hl hl2]

theorem chapterClose_pos : ∀ {r2 : List Char} {pre k : Nat},
    chapterClose r2 pre = some k → 0 < k := by
  intro r2 pre k h
  unfold chapterClose at h
  dsimp only at h
  split at h
  · split at h
    · cases h; omega
    · cases h
  · cases h

theorem chapterTokenHere_pos : ∀ {s : List Char} {k : Nat},
    chapterTokenHere s = some k → 0 < k := by
  intro s k h
  unfold chapterTokenHere at h
  cases s with
  | nil => cases h
  | cons c rest =>
    dsimp only at h
    split at h
    · split at h
      · split at h
        · cases h
        · exact chapterClose_pos h
      · exact chapterClose_pos h
    · cases h

theorem chapterFindallGo_fuel : ∀ (f1 f2 : Nat) (s : List Char),
    s.length < f1 → s.length < f2 → chapterFindallGo f1 s = chapterFindallGo f2 s
  | 0, _, s, h1, _ => absurd h1 (by omega)
  | _ + 1, 0, s, _, h2 => absurd h2 (by omega)
  | f1 + 1, f2 + 1, s, h1, h2 => by
    unfold chapterFindallGo
    cases s with
    | nil => rfl
    | cons c rest =>
      cases hk : chapterTokenHere (c :: rest) with
      | none =>
        simp only [hk]
        exact chapterFindallGo_fuel f1 f2 rest
          (by simp only [List.length_cons] at h1; omega)
          (by simp only [List.length_cons] at h2; omega)
      | some k =>
        simp only [hk]
        have hp := chapterTokenHere_pos hk
        rw [chapterFindallGo_fuel f1 f2 ((c :: rest).drop k)
          (by rw [List.length_drop]; simp only [List.length_cons] at h1 ⊢; omega)
          (by rw [List.length_drop]; simp only [List.length_cons] at h2 ⊢; omega)]

theorem pass1Go_fuel : ∀ (f1 f2 : Nat) (l : List DayRecord),
    l.length ≤ f1 + 1 → l.length ≤ f2 + 1 → pass1Go f1 l = pass1Go f2 l
  | 0, f2, [], _, _ => by cases f2 <;> rfl
  | 0, f2, [_], _, _ => by cases f2 <;> rfl
  | 0, _, _ :: _ :: _, h1, _ => by simp only [List.length_cons] at h1; omega
  | _ + 1, 0, [], _, _ => rfl
  | _ + 1, 0, [_], _, _ => rfl
  | _ + 1, 0, _ :: _ :: _, _, h2 => by simp only [List.length_cons] at h2; omega
  | f1 + 1, f2 + 1, [], _, _ => rfl
  | f1 + 1, f2 + 1, [_], _, _ => rfl
  | f1 + 1, f2 + 1, a :: b :: rest, h1, h2 => by
    unfold pass1Go
    dsimp only
    rw [pass1Go_fuel f1 f2 ((step1 a b).2 :: rest)
      (by simp only [List.length_cons] at h1 ⊢; omega)
      (by simp only [List.length_cons] at h2 ⊢; omega)]

theorem pass2Go_fuel : ∀ (f1 f2 : Nat) (l : List DayRecord),
    l.length ≤ f1 + 1 → l.length ≤ f2 + 1 → pass2Go f1 l = pass2Go f2 l
  | 0, f2, [], _, _ => by cases f2 <;> rfl
  | 0, f2, [_], _, _ => by cases f2 <;> rfl
  | 0, _, _ :: _ :: _, h1, _ => by simp only [List.length_cons] at h1; omega
  | _ + 1, 0, [], _, _ => rfl
  | _ + 1, 0, [_], _, _ => rfl
  | _ + 1, 0, _ :: _ :: _, _, h2 => by simp only [List.length_cons] at h2; omega
  | f1 + 1, f2 + 1, [], _, _ => rfl
  | f1 + 1, f2 + 1, [_], _, _ => rfl
  | f1 + 1, f2 + 1, a :: b :: rest, h1, h2 => by
    unfold pass2Go
    dsimp only
    rw [pass2Go_fuel f1 f2 ((step2 a b).2 :: rest)
      (by simp only [List.length_cons] at h1 ⊢; omega)
      (by simp only [List.length_cons] at h2 ⊢; omega)]

theorem pass3Go_fuel : ∀ (f1 f2 : Nat) (l : List DayRecord),
    l.length ≤ f1 + 1 → l.length ≤ f2 + 1 → pass3Go f1 l = pass3Go f2 l
  | 0, f2, [], _, _ => by cases f2 <;> rfl
  | 0, f2, [_], _, _ => by cases f2 <;> rfl
  | 0, _, _ :: _ :: _, h1, _ => by simp only [List.length_cons] at h1; omega
  | _ + 1, 0, [], _, _ => rfl
  | _ + 1, 0, [_], _, _ => rfl
  | _ + 1, 0, _ :: _ :: _, _, h2 => by simp only [List.length_cons] at h2; omega
  | f1 + 1, f2 + 1, [], _, _ => rfl
  | f1 + 1, f2 + 1, [_], _, _ => rfl
  | f1 + 1, f2 + 1, a :: b :: rest, h1, h2 => by
    unfold pass3Go
    dsimp only
    rw [pass3Go_fuel f1 f2 ((step3 a b).2 :: rest)
      (by simp only [List.length_cons] at h1 ⊢; omega)
      (by simp only [List.length_cons] at h2 ⊢; omega)]

theorem pass1EGo_fuel : ∀ (f1 f2 : Nat) (l : List (Option DayRecord)),
    l.length ≤ f1 + 1 → l.length ≤ f2 + 1 → pass1EGo f1 l = pass1EGo f2 l
  | 0, f2, [], _, _ => by cases f2 <;> rfl
  | 0, f2, [_], _, _ => by cases f2 <;> rfl
  | 0, _, _ :: _ :: _, h1, _ => by simp only [List.length_cons] at h1; omega
  | _ + 1, 0, [], _, _ => rfl
  | _ + 1, 0, [_], _, _ => rfl
  | _ + 1, 0, _ :: _ :: _, _, h2 => by simp only [List.length_cons] at h2; omega
  | f1 + 1, f2 + 1, [], _, _ => rfl
  | f1 + 1, f2 + 1, [_], _, _ => rfl
  | f1 + 1, f2 + 1, a :: b :: rest, h1, h2 => by
    unfold pass1EGo
    cases a with
    | none => rfl
    | some ra =>
      cases b with
      | none => rfl
      | some rb =>
        dsimp only
        rw [pass1EGo_fuel f1 f2 (some (step1 ra rb).2 :: rest)
          (by simp only [List.length_cons] at h1 ⊢; omega)
          (by simp only [List.length_cons] at h2 ⊢; omega)]

theorem pass2EGo_fuel : ∀ (f1 f2 : Nat) (l : List (Option DayRecord)),
    l.length ≤ f1 + 1 → l.length ≤ f2 + 1 → pass2EGo f1 l = pass2EGo f2 l
  | 0, f2, [], _, _ => by cases f2 <;> rfl
  | 0, f2, [_], _, _ => by cases f2 <;> rfl
  | 0, _, _ :: _ :: _, h1, _ => by simp only [List.length_cons] at h1; omega
  | _ + 1, 0, [], _, _ => rfl
  | _ + 1, 0, [_], _, _ => rfl
  | _ + 1, 0, _ :: _ :: _, _, h2 => by simp only [List.length_cons] at h2; omega
  | f1 + 1, f2 + 1, [], _, _ => rfl
  | f1 + 1, f2 + 1, [_], _, _ => rfl
  | f1 + 1, f2 + 1, a :: b :: rest, h1, h2 => by
    unfold pass2EGo
    cases a with
    | none => rfl
    | some ra =>
      cases b with
      | none => rfl
      | some rb =>
        dsimp only
        rw [pass2EGo_fuel f1 f2 (some (step2 ra rb).2 :: rest)
          (by simp only [List.length_cons] at h1 ⊢; omega)
          (by simp only [List.length_cons] at h2 ⊢; omega)]

theorem pass3EGo_fuel : ∀ (f1 f2 : Nat) (l : List (Option DayRecord)),
    l.length ≤ f1 + 1 → l.length ≤ f2 + 1 → pass3EGo f1 l = pass3EGo f2 l
  | 0, f2, [], _, _ => by cases f2 <;> rfl
  | 0, f2, [_], _, _ => by cases f2 <;> rfl
  | 0, _, _ :: _ :: _, h1, _ => by simp only [List.length_cons] at h1; omega
  | _ + 1, 0, [], _, _ => rfl
  | _ + 1, 0, [_], _, _ => rfl
  | _ + 1, 0, _ :: _ :: _, _, h2 => by simp only [List.length_cons] at h2; omega
  | f1 + 1, f2 + 1, [], _, _ => rfl
  | f1 + 1, f2 + 1, [_], _, _ => rfl
  | f1 + 1, f2 + 1, a :: b :: rest, h1, h2 => by
    unfold pass3EGo
    cases a with
    | none => rfl
    | some ra =>
      cases b with
      | none => rfl
      | some rb =>
        dsimp only
        rw [pass3EGo_fuel f1 f2 (some (step3 ra rb).2 :: rest)
          (by simp only [List.length_cons] at h1 ⊢; omega)
          (by simp only [List.length_cons] at h2 ⊢; omega)]
